import Mathlib

/-
Verification of the in-memory session-storage contract of the agno
cookbook demos (cookbook/storage/in_memory_storage/*).

The demo scripts under src/ call `InMemoryStorage` from
`agno.storage.in_memory`; the class body itself is not among the
provided source files, so the store is modelled from the spec
(sections 3, 4.1, 7, 8): a mapping from session identifier to Session,
kept in insertion order like a Python dict, with operations
create_or_get, read, write and get_all_session_ids (the demos' name for
list_session_ids).  Run counting mirrors the demo code
`len(session.memory.get("runs", []))`.
-/

namespace Agno

/-- A run: one recorded interaction.  Opaque to the store; modelled as a
numeric payload. -/
abbrev Run := Nat

/-- Modelled from the spec: a Session (spec section 3) holds its identifier,
a mode tag, and an opaque memory mapping; the ordered run history sits in
the memory mapping under the key "runs", mirroring the demos' use of
`session.memory.get("runs", [])`. -/
structure Session where
  session_id : String
  mode : String
  memory : List (String × List Run)
deriving DecidableEq

/-- Lookup in a Python-dict-like association list (first binding wins;
on a well-formed dict keys are unique so there is at most one). -/
def dictFind {α : Type} (l : List (String × α)) (k : String) : Option α :=
  match l with
  | [] => none
  | (k', v) :: rest => if k' = k then some v else dictFind rest k

/-- Python `d.get(k, default)`. -/
def dictGet {α : Type} (l : List (String × α)) (k : String) (d : α) : α :=
  (dictFind l k).getD d

/-- Python `d[k] = v`: replace the binding in place if the key is present
(keeping insertion order), else append a new binding at the end. -/
def dictUpsert {α : Type} (l : List (String × α)) (k : String) (v : α) :
    List (String × α) :=
  match l with
  | [] => [(k, v)]
  | (k', v') :: rest =>
      if k' = k then (k, v) :: rest else (k', v') :: dictUpsert rest k v

/-- The run history of a session: `session.memory.get("runs", [])`, as the
demos read it. -/
def Session.runs (sess : Session) : List Run :=
  dictGet sess.memory "runs" []

/-- `len(session.memory.get("runs", []))`, the demos' run count. -/
def Session.run_count (sess : Session) : Nat :=
  sess.runs.length

/-- Appending one run to a session's history, the per-interaction mutation
the spec describes for Session lifecycle. -/
def Session.appendRun (sess : Session) (r : Run) : Session :=
  ⟨sess.session_id, sess.mode,
    dictUpsert sess.memory "runs" (sess.runs ++ [r])⟩

/-- Modelled from the spec: the SessionStore (spec sections 3 and 4.1).
The class `InMemoryStorage` of `agno.storage.in_memory` is not among the
provided sources; it owns a mode tag and an insertion-ordered mapping from
session identifier to Session. -/
structure InMemoryStorage where
  mode : String
  sessions : List (String × Session)
deriving DecidableEq

/-- Modelled from the spec: constructing the store.  The mode argument is
optional; the single-agent demo constructs `InMemoryStorage()` with no
mode and then reads `storage.mode`, so the default tag is "agent". -/
def InMemoryStorage.new (mode : Option String) : InMemoryStorage :=
  ⟨mode.getD "agent", []⟩

/-- Modelled from the spec: `read(session_id)` returns the session if
present, else an explicit absent result; it never raises (it is a total
function into Option). -/
def InMemoryStorage.read (st : InMemoryStorage) (session_id : String) :
    Option Session :=
  dictFind st.sessions session_id

/-- Modelled from the spec: `create_or_get(session_id, mode)` returns the
existing session unchanged when present (the mode argument is not
validated against the stored mode); otherwise it creates a session with
empty run history and the given mode and stores it. -/
def InMemoryStorage.create_or_get (st : InMemoryStorage)
    (session_id mode : String) : Session × InMemoryStorage :=
  match st.read session_id with
  | some sess => (sess, st)
  | none =>
      (⟨session_id, mode, []⟩,
        ⟨st.mode, st.sessions ++ [(session_id, ⟨session_id, mode, []⟩)]⟩)

/-- Modelled from the spec: `write(session_id, session)` replaces or
inserts the record; last write wins. -/
def InMemoryStorage.write (st : InMemoryStorage) (session_id : String)
    (session : Session) : InMemoryStorage :=
  ⟨st.mode, dictUpsert st.sessions session_id session⟩

/-- Modelled from the spec: `list_session_ids(mode?)` (named
`get_all_session_ids` in the demos) returns all known identifiers in
insertion order, optionally filtered by the stored sessions' mode. -/
def InMemoryStorage.get_all_session_ids (st : InMemoryStorage)
    (mode : Option String) : List String :=
  match mode with
  | none => st.sessions.map Prod.fst
  | some m => (st.sessions.filter (fun p => p.2.mode == m)).map Prod.fst

/-- The identifiers known to the store, in insertion order. -/
def InMemoryStorage.keys (st : InMemoryStorage) : List String :=
  st.sessions.map Prod.fst

/-- Well-formedness: identifiers are unique within a store (spec
section 3 invariant); holds for every store reachable from `new`. -/
def InMemoryStorage.WF (st : InMemoryStorage) : Prop :=
  st.keys.Nodup

/-- Appending a run to the session stored under an identifier: read,
append, write back — the mutation each interaction performs through a
handle to the store. -/
def InMemoryStorage.appendRun (st : InMemoryStorage) (session_id : String)
    (r : Run) : InMemoryStorage :=
  match st.read session_id with
  | none => st
  | some sess => st.write session_id (sess.appendRun r)

/-- One observable operation of the storage contract (spec section 4.1). -/
inductive Op where
  | createOrGet (session_id mode : String)
  | write (session_id : String) (session : Session)
  | read (session_id : String)
  | listIds (mode : Option String)
deriving DecidableEq

/-- The state transition of one operation (read and listIds do not change
the store). -/
def InMemoryStorage.applyOp (st : InMemoryStorage) : Op → InMemoryStorage
  | Op.createOrGet s m => (st.create_or_get s m).2
  | Op.write s sess => st.write s sess
  | Op.read _ => st
  | Op.listIds _ => st

/-- Running a sequence of operations against the store. -/
def InMemoryStorage.applyOps (st : InMemoryStorage) (ops : List Op) :
    InMemoryStorage :=
  ops.foldl InMemoryStorage.applyOp st

/-- The identifier an operation passes to create_or_get or write, if any. -/
def Op.touched : Op → Option String
  | Op.createOrGet s _ => some s
  | Op.write s _ => some s
  | Op.read _ => none
  | Op.listIds _ => none

/-- All identifiers ever passed to create_or_get or write in a trace. -/
def touchedIds (ops : List Op) : List String :=
  ops.filterMap Op.touched

/-- Adding an identifier to a key list the way the store does: no change
if already known, else appended at the end. -/
def addKey (K : List String) (s : String) : List String :=
  if s ∈ K then K else K ++ [s]

end Agno

namespace Agno

theorem dictFind_eq_none {α : Type} (l : List (String × α)) (k : String) :
    dictFind l k = none ↔ k ∉ l.map Prod.fst := by
  induction l with
  | nil => simp [dictFind]
  | cons hd tl ih =>
      obtain ⟨k', v⟩ := hd
      by_cases h : k' = k
      · simp [dictFind, h]
      · simp [dictFind, h, ih, Ne.symm h]

theorem dictFind_append_of_none {α : Type} (l l' : List (String × α))
    (k : String) (h : dictFind l k = none) :
    dictFind (l ++ l') k = dictFind l' k := by
  induction l with
  | nil => simp
  | cons hd tl ih =>
      obtain ⟨k', v⟩ := hd
      by_cases hk : k' = k
      · simp [dictFind, hk] at h
      · simp [dictFind, hk] at h ⊢
        exact ih h

theorem dictFind_append_of_some {α : Type} (l l' : List (String × α))
    (k : String) (v : α) (h : dictFind l k = some v) :
    dictFind (l ++ l') k = some v := by
  induction l with
  | nil => simp [dictFind] at h
  | cons hd tl ih =>
      obtain ⟨k', v'⟩ := hd
      by_cases hk : k' = k
      · simp [dictFind, hk] at h ⊢
        exact h
      · simp [dictFind, hk] at h ⊢
        exact ih h

theorem dictFind_upsert_self {α : Type} (l : List (String × α))
    (k : String) (v : α) :
    dictFind (dictUpsert l k v) k = some v := by
  induction l with
  | nil => simp [dictFind, dictUpsert]
  | cons hd tl ih =>
      obtain ⟨k', v'⟩ := hd
      by_cases hk : k' = k
      · simp [dictFind, dictUpsert, hk]
      · simp [dictFind, dictUpsert, hk, ih]

theorem dictFind_upsert_ne {α : Type} (l : List (String × α))
    (k k' : String) (v : α) (h : k' ≠ k) :
    dictFind (dictUpsert l k v) k' = dictFind l k' := by
  induction l with
  | nil => simp [dictFind, dictUpsert, Ne.symm h]
  | cons hd tl ih =>
      obtain ⟨k'', v'⟩ := hd
      by_cases hk : k'' = k
      · subst hk
        simp [dictFind, dictUpsert, Ne.symm h]
      · simp [dictFind, dictUpsert, hk, ih]

theorem keys_dictUpsert {α : Type} (l : List (String × α)) (k : String)
    (v : α) :
    (dictUpsert l k v).map Prod.fst =
      if k ∈ l.map Prod.fst then l.map Prod.fst
      else l.map Prod.fst ++ [k] := by
  induction l with
  | nil => simp [dictUpsert]
  | cons hd tl ih =>
      obtain ⟨k', v'⟩ := hd
      by_cases hk : k' = k
      · subst hk
        simp [dictUpsert]
      · by_cases hmem : k ∈ tl.map Prod.fst
        · simp [dictUpsert, hk, ih, hmem, Ne.symm hk]
        · simp [dictUpsert, hk, ih, hmem, Ne.symm hk]

theorem dictFind_mem {α : Type} (l : List (String × α)) (k : String)
    (v : α) (h : dictFind l k = some v) : (k, v) ∈ l := by
  induction l with
  | nil => simp [dictFind] at h
  | cons hd tl ih =>
      obtain ⟨k', v'⟩ := hd
      by_cases hk : k' = k
      · subst hk
        simp [dictFind] at h
        simp [h]
      · simp [dictFind, hk] at h
        simp [ih h]

theorem mem_dictFind {α : Type} (l : List (String × α)) (k : String)
    (v : α) (hnd : (l.map Prod.fst).Nodup) (h : (k, v) ∈ l) :
    dictFind l k = some v := by
  induction l with
  | nil => simp at h
  | cons hd tl ih =>
      obtain ⟨k', v'⟩ := hd
      simp only [List.map_cons, List.nodup_cons] at hnd
      rcases List.mem_cons.1 h with h1 | h1
      · cases h1
        simp [dictFind]
      · by_cases hk : k' = k
        · subst hk
          exact absurd (List.mem_map_of_mem Prod.fst h1) hnd.1
        · simp [dictFind, hk]
          exact ih hnd.2 h1

theorem dictFind_some_mem_keys {α : Type} (l : List (String × α))
    (k : String) (v : α) (h : dictFind l k = some v) :
    k ∈ l.map Prod.fst :=
  List.mem_map_of_mem Prod.fst (dictFind_mem l k v h)

theorem keys_write (st : InMemoryStorage) (s : String) (v : Session) :
    (st.write s v).keys = addKey st.keys s := by
  simp only [InMemoryStorage.write, InMemoryStorage.keys, addKey]
  exact keys_dictUpsert st.sessions s v

theorem keys_create_or_get (st : InMemoryStorage) (s m : String) :
    (st.create_or_get s m).2.keys = addKey st.keys s := by
  unfold InMemoryStorage.create_or_get
  cases h : st.read s with
  | none =>
      have hmem : s ∉ st.keys := (dictFind_eq_none st.sessions s).1 h
      simp only [InMemoryStorage.keys] at hmem
      simp only [h, InMemoryStorage.keys, addKey, if_neg hmem]
      simp
  | some sess =>
      have hmem : s ∈ st.keys := dictFind_some_mem_keys st.sessions s sess h
      simp only [InMemoryStorage.keys] at hmem
      simp only [h, InMemoryStorage.keys, addKey, if_pos hmem]

theorem keys_applyOp (st : InMemoryStorage) (op : Op) :
    (st.applyOp op).keys =
      match op.touched with
      | some s => addKey st.keys s
      | none => st.keys := by
  cases op with
  | createOrGet s m => exact keys_create_or_get st s m
  | write s sess => exact keys_write st s sess
  | read s => rfl
  | listIds m => rfl

theorem keys_applyOps (st : InMemoryStorage) (ops : List Op) :
    (st.applyOps ops).keys = (touchedIds ops).foldl addKey st.keys := by
  induction ops generalizing st with
  | nil => rfl
  | cons op rest ih =>
      have hstep : InMemoryStorage.applyOps st (op :: rest) =
          InMemoryStorage.applyOps (st.applyOp op) rest := rfl
      rw [hstep, ih]
      cases op with
      | createOrGet s m =>
          simp [touchedIds, Op.touched, InMemoryStorage.applyOp,
            keys_create_or_get]
      | write s sess =>
          simp [touchedIds, Op.touched, InMemoryStorage.applyOp, keys_write]
      | read s => simp [touchedIds, Op.touched, InMemoryStorage.applyOp]
      | listIds m => simp [touchedIds, Op.touched, InMemoryStorage.applyOp]

theorem foldl_addKey_nodup (l K : List String) (h : K.Nodup) :
    (l.foldl addKey K).Nodup := by
  induction l generalizing K with
  | nil => exact h
  | cons s rest ih =>
      simp only [List.foldl_cons]
      apply ih
      by_cases hs : s ∈ K
      · simpa [addKey, hs] using h
      · simp [addKey, hs, List.nodup_append, h]

theorem foldl_addKey_toFinset (l K : List String) :
    (l.foldl addKey K).toFinset = K.toFinset ∪ l.toFinset := by
  induction l generalizing K with
  | nil => simp
  | cons s rest ih =>
      simp only [List.foldl_cons, List.toFinset_cons]
      rw [ih]
      ext a
      by_cases hs : s ∈ K
      · simp only [addKey, if_pos hs, Finset.mem_union, List.mem_toFinset,
          Finset.mem_insert]
        constructor
        · rintro (h | h)
          · exact Or.inl h
          · exact Or.inr (Or.inr h)
        · rintro (h | h | h)
          · exact Or.inl h
          · subst h
            exact Or.inl hs
          · exact Or.inr h
      · simp only [addKey, if_neg hs, Finset.mem_union, List.mem_toFinset,
          List.mem_append, List.mem_singleton, Finset.mem_insert]
        tauto

theorem read_applyOp_preserved (st : InMemoryStorage) (op : Op)
    (s : String) (h : st.read s ≠ none) : (st.applyOp op).read s ≠ none := by
  obtain ⟨v, hv⟩ := Option.ne_none_iff_exists'.1 h
  cases op with
  | createOrGet t m =>
      simp only [InMemoryStorage.applyOp]
      unfold InMemoryStorage.create_or_get
      cases ht : st.read t with
      | some sess => simp [hv]
      | none =>
          have : (⟨st.mode,
              st.sessions ++ [(t, ⟨t, m, []⟩)]⟩ : InMemoryStorage).read s
              = some v :=
            dictFind_append_of_some st.sessions _ s v hv
          simp [this]
  | write t sess =>
      by_cases hts : t = s
      · subst hts
        simp [InMemoryStorage.applyOp, InMemoryStorage.read,
          InMemoryStorage.write, dictFind_upsert_self]
      · have : (st.write t sess).read s = st.read s :=
          dictFind_upsert_ne st.sessions t s sess (Ne.symm hts)
        simp [InMemoryStorage.applyOp, this, hv]
  | read t => simp [InMemoryStorage.applyOp, hv]
  | listIds m => simp [InMemoryStorage.applyOp, hv]

theorem read_none_applyOp_preserved (st : InMemoryStorage) (op : Op)
    (s : String) (h : st.read s = none) (ht : op.touched ≠ some s) :
    (st.applyOp op).read s = none := by
  cases op with
  | createOrGet t m =>
      have hts : t ≠ s := by
        intro he
        exact ht (by simp [Op.touched, he])
      simp only [InMemoryStorage.applyOp]
      unfold InMemoryStorage.create_or_get
      cases hread : st.read t with
      | some sess => exact h
      | none =>
          show dictFind (st.sessions ++ [(t, ⟨t, m, []⟩)]) s = none
          rw [dictFind_append_of_none st.sessions _ s h]
          simp [dictFind, hts]
  | write t sess =>
      have hts : t ≠ s := by
        intro he
        exact ht (by simp [Op.touched, he])
      show dictFind (dictUpsert st.sessions t sess) s = none
      rw [dictFind_upsert_ne st.sessions t s sess (Ne.symm hts)]
      exact h
  | read t => exact h
  | listIds m => exact h

/-- Concrete fixture: a fresh store with mode tag "team". -/
def storeT : InMemoryStorage := InMemoryStorage.new (some "team")

/-- Concrete fixture: a team session with empty memory. -/
def sessA : Session := ⟨"abc", "team", []⟩

/-- Concrete fixture: the store holding sessA under "abc". -/
def storeA : InMemoryStorage := storeT.write "abc" sessA

/-- Concrete fixture: a session whose memory holds one run under "runs". -/
def sessR : Session := ⟨"xyz", "agent", [("runs", [7])]⟩

/-- C1: create_or_get creates a session with empty run history and the
given mode when the identifier is absent (and read then returns it), and
returns the existing session with the store unchanged when present,
without validating the mode argument against the stored mode. -/
theorem create_or_get_spec (st : InMemoryStorage) (s m : String) :
    (st.read s = none →
      (st.create_or_get s m).1.mode = m ∧
      (st.create_or_get s m).1.run_count = 0 ∧
      (st.create_or_get s m).2.read s = some (st.create_or_get s m).1) ∧
    (∀ sess, st.read s = some sess → st.create_or_get s m = (sess, st)) := by
  constructor
  · intro h
    unfold InMemoryStorage.create_or_get
    rw [h]
    refine ⟨rfl, rfl, ?_⟩
    show dictFind (st.sessions ++ [(s, ⟨s, m, []⟩)]) s = some ⟨s, m, []⟩
    rw [dictFind_append_of_none st.sessions _ s h]
    simp [dictFind]
  · intro sess hs
    unfold InMemoryStorage.create_or_get
    rw [hs]

/-- C1 witness: on an empty team store the created session has mode
"team" and zero runs and is then readable; on a store already holding the
session, create_or_get returns it unchanged whatever mode is passed. -/
theorem create_or_get_spec_witness :
    ((storeT.create_or_get "abc" "team").1.mode = "team" ∧
     (storeT.create_or_get "abc" "team").1.run_count = 0 ∧
     (storeT.create_or_get "abc" "team").2.read "abc"
       = some (storeT.create_or_get "abc" "team").1) ∧
    storeA.create_or_get "abc" "workflow" = (sessA, storeA) :=
  ⟨(create_or_get_spec storeT "abc" "team").1 (by decide),
   (create_or_get_spec storeA "abc" "workflow").2 sessA (by decide)⟩

/-- C2: on a well-formed store, read returns exactly the stored session
when the identifier is present, and an explicit absent result exactly when
the identifier is unknown; read is a total function into Option, so it
never raises. -/
theorem read_spec (st : InMemoryStorage) (s : String) (hwf : st.WF) :
    (∀ sess, (st.read s = some sess ↔ (s, sess) ∈ st.sessions)) ∧
    (st.read s = none ↔ s ∉ st.keys) := by
  constructor
  · intro sess
    constructor
    · exact fun h => dictFind_mem st.sessions s sess h
    · exact fun h => mem_dictFind st.sessions s sess hwf h
  · exact dictFind_eq_none st.sessions s

/-- C2 witness: concrete instantiation on the one-session store. -/
theorem read_spec_witness :
    storeA.read "abc" = some sessA ↔ ("abc", sessA) ∈ storeA.sessions :=
  (read_spec storeA "abc" (show storeA.keys.Nodup by decide)).1 sessA

/-- C3: on a fresh store, read of an identifier returns absent as long as
no create_or_get or write has been issued for that identifier. -/
theorem read_fresh (m : Option String) (s : String) (ops : List Op)
    (h : s ∉ touchedIds ops) :
    ((InMemoryStorage.new m).applyOps ops).read s = none := by
  have main : ∀ (l : List Op) (st : InMemoryStorage), s ∉ touchedIds l →
      st.read s = none → (st.applyOps l).read s = none := by
    intro l
    induction l with
    | nil => exact fun st _ h0 => h0
    | cons op rest ih =>
        intro st hmem h0
        have hop : op.touched ≠ some s := fun he =>
          hmem (List.mem_filterMap.2 ⟨op, List.mem_cons_self op rest, he⟩)
        have hrest : s ∉ touchedIds rest := fun hr => by
          obtain ⟨a, ha, hfa⟩ := List.mem_filterMap.1 hr
          exact hmem
            (List.mem_filterMap.2 ⟨a, List.mem_cons_of_mem op ha, hfa⟩)
        exact ih (st.applyOp op) hrest
          (read_none_applyOp_preserved st op s h0 hop)
  exact main ops (InMemoryStorage.new m) h rfl

/-- C3 witness: an operation on a different identifier leaves "abc"
absent. -/
theorem read_fresh_witness :
    ((InMemoryStorage.new none).applyOps
      [Op.createOrGet "xyz" "agent"]).read "abc" = none :=
  read_fresh none "abc" [Op.createOrGet "xyz" "agent"] (by decide)

/-- C4: write inserts when the identifier is absent and replaces in place
when present (the key list grows exactly on insert), and last write wins:
after two writes to the same identifier, read returns the second value. -/
theorem write_spec (st : InMemoryStorage) (s : String) (v v1 v2 : Session) :
    (st.write s v).read s = some v ∧
    ((st.write s v1).write s v2).read s = some v2 ∧
    (st.write s v).keys =
      (if s ∈ st.keys then st.keys else st.keys ++ [s]) :=
  ⟨dictFind_upsert_self st.sessions s v,
   dictFind_upsert_self (dictUpsert st.sessions s v1) s v2,
   keys_write st s v⟩

/-- C5: handles to the same store share state: after appending a run to
the session stored under an identifier, reading that identifier (through
any handle of the same store) shows the appended run, and the run count
grows by one. -/
theorem shared_store_visibility (st : InMemoryStorage) (s : String)
    (sess : Session) (r : Run) (h : st.read s = some sess) :
    (st.appendRun s r).read s = some (sess.appendRun r) ∧
    (sess.appendRun r).runs = sess.runs ++ [r] ∧
    (sess.appendRun r).run_count = sess.run_count + 1 := by
  have hruns : (sess.appendRun r).runs = sess.runs ++ [r] := by
    show dictGet (dictUpsert sess.memory "runs" (sess.runs ++ [r]))
      "runs" [] = sess.runs ++ [r]
    simp [dictGet, dictFind_upsert_self]
  refine ⟨?_, hruns, ?_⟩
  · unfold InMemoryStorage.appendRun
    rw [h]
    exact dictFind_upsert_self st.sessions s (sess.appendRun r)
  · simp [Session.run_count, hruns]

/-- C5 witness: appending run 2 to the stored session is visible on
re-read. -/
theorem shared_store_visibility_witness :
    (storeA.appendRun "abc" 2).read "abc" = some (sessA.appendRun 2) ∧
    (sessA.appendRun 2).runs = sessA.runs ++ [2] ∧
    (sessA.appendRun 2).run_count = sessA.run_count + 1 :=
  shared_store_visibility storeA "abc" sessA 2 (by decide)

/-- C6: after any operation sequence on a fresh store, the length of the
unfiltered identifier listing equals the number of distinct identifiers
ever passed to create_or_get or write. -/
theorem list_session_ids_count (m : Option String) (ops : List Op) :
    (((InMemoryStorage.new m).applyOps ops).get_all_session_ids none).length
      = (touchedIds ops).toFinset.card := by
  have hkeys : ((InMemoryStorage.new m).applyOps ops).get_all_session_ids
      none = ((InMemoryStorage.new m).applyOps ops).keys := rfl
  rw [hkeys, keys_applyOps]
  have hnew : (InMemoryStorage.new m).keys = [] := rfl
  rw [hnew]
  have hnd : (List.foldl addKey [] (touchedIds ops)).Nodup :=
    foldl_addKey_nodup (touchedIds ops) [] List.nodup_nil
  have hfin : (List.foldl addKey [] (touchedIds ops)).toFinset
      = (touchedIds ops).toFinset := by
    rw [foldl_addKey_toFinset]
    simp
  calc (List.foldl addKey [] (touchedIds ops)).length
      = (List.foldl addKey [] (touchedIds ops)).toFinset.card :=
        (List.toFinset_card_of_nodup hnd).symm
    _ = (touchedIds ops).toFinset.card := by rw [hfin]

/-- C7: the mode-filtered listing contains a stored identifier exactly
when its session carries that mode (so identifiers created with a
different mode are excluded), and it is a sublist of the unfiltered
insertion-ordered listing. -/
theorem list_session_ids_mode_filter (st : InMemoryStorage) (m s : String)
    (sess : Session) (hwf : st.WF) (h : st.read s = some sess) :
    (s ∈ st.get_all_session_ids (some m) ↔ sess.mode = m) ∧
    (st.get_all_session_ids (some m)).Sublist
      (st.get_all_session_ids none) := by
  constructor
  · constructor
    · intro hmem
      simp only [InMemoryStorage.get_all_session_ids, List.mem_map,
        List.mem_filter] at hmem
      obtain ⟨⟨k, w⟩, ⟨hw, hmode⟩, hk⟩ := hmem
      simp only at hk
      subst hk
      have hread : st.read k = some w := mem_dictFind st.sessions k w hwf hw
      rw [h] at hread
      have hws : w = sess := (Option.some.inj hread).symm
      subst hws
      simpa using hmode
    · intro hmode
      have hmem := dictFind_mem st.sessions s sess h
      simp only [InMemoryStorage.get_all_session_ids, List.mem_map,
        List.mem_filter]
      exact ⟨(s, sess), ⟨hmem, by simp [hmode]⟩, rfl⟩
  · show ((st.sessions.filter (fun p => p.2.mode == m)).map
      Prod.fst).Sublist (st.sessions.map Prod.fst)
    exact (List.filter_sublist st.sessions).map Prod.fst

/-- C7 witness: on the one-session store the team filter keeps "abc"
exactly because its mode is "team", and the filtered listing is a sublist
of the unfiltered one. -/
theorem list_session_ids_mode_filter_witness :
    ("abc" ∈ storeA.get_all_session_ids (some "team")
      ↔ sessA.mode = "team") ∧
    (storeA.get_all_session_ids (some "team")).Sublist
      (storeA.get_all_session_ids none) :=
  list_session_ids_mode_filter storeA "team" "abc" sessA
    (show storeA.keys.Nodup by decide) (by decide)

/-- C8: no eviction: once an identifier is present in the store, it stays
present after any further sequence of contract operations. -/
theorem no_eviction (st : InMemoryStorage) (s : String) (ops : List Op)
    (h : st.read s ≠ none) : (st.applyOps ops).read s ≠ none := by
  induction ops generalizing st with
  | nil => exact h
  | cons op rest ih =>
      exact ih (st.applyOp op) (read_applyOp_preserved st op s h)

/-- C8 witness: "abc" survives a create of another identifier, an
overwrite of itself, and a read. -/
theorem no_eviction_witness :
    (storeA.applyOps [Op.createOrGet "xyz" "agent",
      Op.write "abc" sessR, Op.read "abc"]).read "abc" ≠ none :=
  no_eviction storeA "abc"
    [Op.createOrGet "xyz" "agent", Op.write "abc" sessR, Op.read "abc"]
    (by decide)

/-- C9: the constructor's mode argument is optional; with no mode the
store's mode tag defaults to "agent", while a supplied mode is kept. -/
theorem default_mode_agent :
    (InMemoryStorage.new none).mode = "agent" ∧
    (InMemoryStorage.new (some "workflow")).mode = "workflow" :=
  ⟨rfl, rfl⟩

/-- C10: the ordered run sequence lives in the session's memory under the
key "runs": a memory with a binding for "runs" yields exactly that list,
and a memory lacking the key is observed as zero runs (the missing key
defaults to the empty sequence rather than an error). -/
theorem runs_key_spec (sess : Session) (l : List Run)
    (hwf : (sess.memory.map Prod.fst).Nodup) :
    (dictFind sess.memory "runs" = none →
      sess.runs = [] ∧ sess.run_count = 0) ∧
    (("runs", l) ∈ sess.memory →
      sess.runs = l ∧ sess.run_count = l.length) := by
  constructor
  · intro h
    have hr : sess.runs = [] := by simp [Session.runs, dictGet, h]
    exact ⟨hr, by simp [Session.run_count, hr]⟩
  · intro h
    have hf := mem_dictFind sess.memory "runs" l hwf h
    have hr : sess.runs = l := by simp [Session.runs, dictGet, hf]
    exact ⟨hr, by simp [Session.run_count, hr]⟩

/-- C10 witness: a memory binding "runs" to [7] is counted as one run; a
memory without the key is counted as zero runs. -/
theorem runs_key_spec_witness :
    (sessR.runs = [7] ∧ sessR.run_count = 1) ∧
    (sessA.runs = [] ∧ sessA.run_count = 0) :=
  ⟨(runs_key_spec sessR [7] (by decide)).2 (by decide),
   (runs_key_spec sessA [] (by decide)).1 (by decide)⟩

end Agno
